import Mathlib

/-!
Verification of the wordle-solver core: the pattern codec (wordle/feedback.py),
the scoring strategies (wordle/strategies.py) and the solver loop
(wordle/solver.py), embedded shallowly.

Words are lists of letter codes (0 = a, ..., 25 = z).  The Python code indexes
words with loops over range(word_length); under the documented precondition
that every word has exactly that length, those loops traverse the word, so the
embedding recurses over the lists and drops the redundant length parameter
except where the source uses it for something other than a loop bound.
-/

/-- A word: letter codes 0..25, one per position. -/
abbrev Word := List Nat

/-- Functional update of a letter-count table (the Python list of 26 ints). -/
def updCount (cnt : Nat → Nat) (c : Nat) (v : Nat) : Nat → Nat :=
  fun d => if d = c then v else cnt d

/-- Letter counts of a word: the loop that does counts[secret[i] - a] += 1.
Counts never go negative in the passes below, so Nat counts are faithful. -/
def initCounts : Word → (Nat → Nat)
  | [] => fun _ => 0
  | c :: rest =>
    let cnt := initCounts rest
    updCount cnt c (cnt c + 1)

/-- Pass 1 of compute_pattern: mark greens (tile 2) where guess and secret
agree, decrementing the count of the matched letter; other tiles stay 0. -/
def pass1 : Word → Word → (Nat → Nat) → List Nat × (Nat → Nat)
  | g :: gs, s :: ss, cnt =>
    if g = s then
      let r := pass1 gs ss (updCount cnt g (cnt g - 1))
      (2 :: r.1, r.2)
    else
      let r := pass1 gs ss cnt
      (0 :: r.1, r.2)
  | _, _, cnt => ([], cnt)

/-- Pass 2 of compute_pattern: left to right over the tiles of pass 1, turn a
0 tile into a yellow (tile 1) when the remaining count of the guessed letter
is still positive, consuming one occurrence. -/
def pass2 : Word → List Nat → (Nat → Nat) → List Nat
  | g :: gs, r :: rs, cnt =>
    if r = 0 then
      if 0 < cnt g then 1 :: pass2 gs rs (updCount cnt g (cnt g - 1))
      else 0 :: pass2 gs rs cnt
    else r :: pass2 gs rs cnt
  | _, _, _ => []

/-- Base-3 encoding of a tile list, most-significant digit at position 0:
the loop pattern = pattern * 3 + v. -/
def encodeTiles (tiles : List Nat) : Nat :=
  tiles.foldl (fun p v => p * 3 + v) 0

/-- compute_pattern from wordle/feedback.py: two-pass duplicate-aware feedback,
encoded base 3 with the most-significant digit at position 0. -/
def compute_pattern (guess secret : Word) : Nat :=
  let counts := initCounts secret
  let pr := pass1 guess secret counts
  let tiles := pass2 guess pr.1 pr.2
  encodeTiles tiles

/-- compute_pattern_batch from wordle/feedback.py.  The source re-inlines the
two-pass body (textually identical to compute_pattern) once per secret and
appends the encoded pattern. -/
def compute_pattern_batch (guess : Word) : List Word → List Nat
  | [] => []
  | secret :: rest =>
    let counts := initCounts secret
    let pr := pass1 guess secret counts
    let p := encodeTiles (pass2 guess pr.1 pr.2)
    p :: compute_pattern_batch guess rest

/-- buckets[p] = buckets.get(p, 0) + 1 on an insertion-ordered dict modelled
as an association list: update the first entry with key p, else append. -/
def dictIncr : List (Nat × Nat) → Nat → List (Nat × Nat)
  | [], p => [(p, 1)]
  | (k, v) :: rest, p =>
    if k = p then (k, v + 1) :: rest else (k, v) :: dictIncr rest p

/-- The loop of bucket_sizes, carrying the dict accumulator. -/
def bucket_sizesAux (guess : Word) : List Word → List (Nat × Nat) → List (Nat × Nat)
  | [], buckets => buckets
  | secret :: rest, buckets =>
    let counts := initCounts secret
    let pr := pass1 guess secret counts
    let p := encodeTiles (pass2 guess pr.1 pr.2)
    bucket_sizesAux guess rest (dictIncr buckets p)

/-- bucket_sizes from wordle/feedback.py: pattern -> count of candidates. -/
def bucket_sizes (guess : Word) (candidates : List Word) : List (Nat × Nat) :=
  bucket_sizesAux guess candidates []

/-- buckets[p].append(w) with creation of a singleton bucket on a missing key,
on the insertion-ordered dict modelled as an association list. -/
def dictAppend : List (Nat × List Word) → Nat → Word → List (Nat × List Word)
  | [], p, w => [(p, [w])]
  | (k, v) :: rest, p, w =>
    if k = p then (k, v ++ [w]) :: rest else (k, v) :: dictAppend rest p w

/-- The loop of bucket_by_pattern, carrying the dict accumulator. -/
def bucket_by_patternAux (guess : Word) : List Word → List (Nat × List Word) → List (Nat × List Word)
  | [], buckets => buckets
  | secret :: rest, buckets =>
    let counts := initCounts secret
    let pr := pass1 guess secret counts
    let p := encodeTiles (pass2 guess pr.1 pr.2)
    bucket_by_patternAux guess rest (dictAppend buckets p secret)

/-- bucket_by_pattern from wordle/feedback.py: pattern -> ordered bucket. -/
def bucket_by_pattern (guess : Word) (candidates : List Word) : List (Nat × List Word) :=
  bucket_by_patternAux guess candidates []

/-- dict lookup with default []: the bucket stored under a key, or the empty
list when no such key exists. -/
def dictGetD : List (Nat × List Word) → Nat → List Word
  | [], _ => []
  | (k, v) :: rest, p => if k = p then v else dictGetD rest p

/-- filter_candidates from wordle/feedback.py: keep, in order, the candidates
whose recomputed pattern against guess equals the given pattern.  The source
re-inlines the two-pass body per candidate and appends matching candidates. -/
def filter_candidates : List Word → Word → Nat → List Word
  | [], _, _ => []
  | secret :: rest, guess, pattern =>
    let counts := initCounts secret
    let pr := pass1 guess secret counts
    let p := encodeTiles (pass2 guess pr.1 pr.2)
    if p = pattern then secret :: filter_candidates rest guess pattern
    else filter_candidates rest guess pattern

/-- The word speed, as letter codes (0 = a, ..., 25 = z). -/
def wSpeed : Word := [18, 15, 4, 4, 3]

/-- The word abide. -/
def wAbide : Word := [0, 1, 8, 3, 4]

/-- The word llama. -/
def wLlama : Word := [11, 11, 0, 12, 0]

/-- The word world. -/
def wWorld : Word := [22, 14, 17, 11, 3]

/-- The word abyss. -/
def wAbyss : Word := [0, 1, 24, 18, 18]

/-- The word banal. -/
def wBanal : Word := [1, 0, 13, 0, 11]

/-- The word proof. -/
def wProof : Word := [15, 17, 14, 14, 5]

/-- The word afoot. -/
def wAfoot : Word := [0, 5, 14, 14, 19]

/-- The word eeeee. -/
def wEeeee : Word := [4, 4, 4, 4, 4]

/-- The word geese. -/
def wGeese : Word := [6, 4, 4, 18, 4]

/-- The word crane. -/
def wCrane : Word := [2, 17, 0, 13, 4]

/-- The word crate. -/
def wCrate : Word := [2, 17, 0, 19, 4]

/-- The word slate. -/
def wSlate : Word := [18, 11, 0, 19, 4]

/-! ## Scoring strategies (wordle/strategies.py) -/

/-- The five registered strategy names. -/
inductive StrategyName where
  | frequency
  | entropy
  | expected_size
  | minimax
  | hybrid
deriving DecidableEq

/-- pos_freq[i][c] of score_frequency: how many candidates have letter c at
position i. -/
def posFreq (candidates : List Word) (i c : Nat) : Nat :=
  (candidates.filter (fun w => w.getD i 26 = c)).length

/-- presence_count[c] of score_frequency: how many candidates contain c. -/
def presenceCount (candidates : List Word) (c : Nat) : Nat :=
  (candidates.filter (fun w => decide (c ∈ w))).length

/-- The per-position loop of score_frequency: positional part for every
position, presence part only on a letter's first occurrence in the guess;
returns the accumulated score and the set of letters seen in the guess.
Python floats are modelled as exact rationals. -/
def freqScoreAux (candidates : List Word) (n : Nat) : List Nat → Nat → List Nat → ℚ × List Nat
  | [], _, seen => (0, seen)
  | c :: rest, i, seen =>
    let posPart : ℚ := 1 * (posFreq candidates i c : ℚ) / (n : ℚ)
    if c ∈ seen then
      let r := freqScoreAux candidates n rest (i + 1) seen
      (posPart + r.1, r.2)
    else
      let r := freqScoreAux candidates n rest (i + 1) (c :: seen)
      (posPart + (1 / 2) * (presenceCount candidates c : ℚ) / (n : ℚ) + r.1, r.2)

/-- score_frequency from wordle/strategies.py: positional frequency (weight 1)
plus global presence (weight 1/2) minus 3/10 per duplicate letter, plus a
1/10 bonus when the guess is itself a candidate; 0 on an empty candidate
set. -/
def score_frequency (guess : Word) (candidates : List Word) (word_length : Nat) : ℚ :=
  let n := candidates.length
  if n = 0 then 0
  else
    let r := freqScoreAux candidates n guess 0 []
    let duplicates := word_length - r.2.length
    let score := r.1 - (3 / 10) * (duplicates : ℚ)
    if guess ∈ candidates then score + 1 / 10 else score

/-- The selection loop shared by Solver._score_pool and
score_frequency_batch: scan the pool keeping the best score, with the
candidate-preference tie-break; the initial best score is None, standing for
the -inf seed that any real score beats. -/
def scorePoolLoop {α : Type} [LinearOrder α] (score : Word → α) (isCand : Word → Bool) :
    List Word → Word → Option α → Bool → Word
  | [], best, _, _ => best
  | g :: rest, best, bestScore, bestIsCand =>
    let sc := score g
    let gc := isCand g
    let better : Bool :=
      match bestScore with
      | none => true
      | some bs => decide (bs < sc) || (decide (sc = bs) && gc && !bestIsCand)
    if better then scorePoolLoop score isCand rest g (some sc) gc
    else scorePoolLoop score isCand rest best bestScore bestIsCand

/-- score_frequency_batch from wordle/strategies.py: argmax of the frequency
score over the pool (the batch precomputation returns the same per-guess
values as score_frequency).  pool[0] on an empty pool raises in Python,
modelled as none; with no candidates it returns pool[0]. -/
def score_frequency_batch (pool candidates : List Word) (word_length : Nat) : Option Word :=
  match pool with
  | [] => none
  | w0 :: _ =>
    if candidates.length = 0 then some w0
    else
      some (scorePoolLoop (fun g => score_frequency g candidates word_length)
        (fun g => decide (g ∈ candidates)) pool w0 none false)

/-- score_entropy from wordle/strategies.py: Shannon entropy (base 2) of the
bucket-size distribution; 0 when at most one candidate remains.  Floats are
idealised as reals. -/
noncomputable def score_entropy (guess : Word) (candidates : List Word) : ℝ :=
  let n := candidates.length
  if n ≤ 1 then 0
  else
    ((bucket_sizes guess candidates).map
      (fun kv => -(((kv.2 : ℝ) / (n : ℝ)) * Real.logb 2 ((kv.2 : ℝ) / (n : ℝ))))).sum

/-- score_expected_size from wordle/strategies.py: negative expected size of
the post-filter candidate set; 0 when at most one candidate remains. -/
noncomputable def score_expected_size (guess : Word) (candidates : List Word) : ℝ :=
  let n := candidates.length
  if n ≤ 1 then 0
  else
    let sum_sq : Nat := ((bucket_sizes guess candidates).map (fun kv => kv.2 * kv.2)).sum;
    -((sum_sq : ℝ) / (n : ℝ))

/-- max(buckets.values()) for a nonempty bucket list (all counts positive). -/
def maxValue (bs : List (Nat × Nat)) : Nat :=
  (bs.map (fun kv => kv.2)).foldr max 0

/-- score_minimax from wordle/strategies.py: negative largest bucket size;
0 on an empty candidate set. -/
noncomputable def score_minimax (guess : Word) (candidates : List Word) : ℝ :=
  if candidates = [] then 0
  else -(maxValue (bucket_sizes guess candidates) : ℝ)

/-- score_hybrid from wordle/strategies.py: minimax on the last two turns,
entropy before, plus a 1e-6 candidate tie-break bonus.  turns_left is a
Python int, so it is modelled in ℤ. -/
noncomputable def score_hybrid (guess : Word) (candidates : List Word)
    (turn max_turns : Nat) : ℝ :=
  let turns_left : Int := (max_turns : Int) - (turn : Int) + 1
  let base :=
    if turns_left ≤ 2 then score_minimax guess candidates
    else score_entropy guess candidates
  if guess ∈ candidates then base + 1 / 1000000 else base

/-! ## Solver (wordle/solver.py) -/

/-- The errors the solver loop can raise: the explicit ValueError on an empty
candidate set, and the IndexError of pool[0] on an empty scoring pool. -/
inductive SolverError where
  | inconsistentState
  | emptyPool
deriving DecidableEq

/-- Solver state from wordle/solver.py. -/
structure Solver where
  word_length : Nat
  max_turns : Nat
  hard_mode : Bool
  strategy_name : StrategyName
  initial_solutions : List Word
  initial_guesses : List Word
  candidates : List Word
  guess_pool : List Word
  history : List (Word × Nat)

/-- Solver.__init__: candidates start as the solutions, the guess pool as the
guesses, with empty history. -/
def mkSolver (solutions guesses : List Word) (strategy : StrategyName)
    (word_length max_turns : Nat) (hard_mode : Bool) : Solver where
  word_length := word_length
  max_turns := max_turns
  hard_mode := hard_mode
  strategy_name := strategy
  initial_solutions := solutions
  initial_guesses := guesses
  candidates := solutions
  guess_pool := guesses
  history := []

/-- Solver.update: append to history, filter the candidates, and in hard mode
also filter the guess pool. -/
def Solver.update (s : Solver) (guess : Word) (pattern : Nat) : Solver :=
  { s with
    history := s.history ++ [(guess, pattern)]
    candidates := filter_candidates s.candidates guess pattern
    guess_pool :=
      if s.hard_mode then filter_candidates s.guess_pool guess pattern
      else s.guess_pool }

/-- Solver.reset: restore the initial candidate set and guess pool. -/
def Solver.reset (s : Solver) : Solver :=
  { s with
    candidates := s.initial_solutions
    guess_pool := s.initial_guesses
    history := [] }

/-- Solver._select_guess_pool: candidates for tiny or large candidate sets;
the full guess pool only for the four information-theoretic strategies within
the pattern-evaluation budget; candidates otherwise.  The turn argument is
unused in the source as well. -/
def Solver.select_guess_pool (s : Solver) (turn : Nat) : List Word :=
  let n := s.candidates.length
  let full_pool_size := s.guess_pool.length
  if n ≤ 2 then s.candidates
  else if 300 < n then s.candidates
  else if (s.strategy_name = StrategyName.entropy ∨
           s.strategy_name = StrategyName.expected_size ∨
           s.strategy_name = StrategyName.hybrid ∨
           s.strategy_name = StrategyName.minimax) ∧
          full_pool_size * n ≤ 2000000 then s.guess_pool
  else s.candidates

/-- Solver._score_guess: dispatch to the strategy registered under the
solver's strategy name. -/
noncomputable def Solver.strategy_score (s : Solver) (turn : Nat) (g : Word) : ℝ :=
  match s.strategy_name with
  | StrategyName.frequency => ((score_frequency g s.candidates s.word_length : ℚ) : ℝ)
  | StrategyName.entropy => score_entropy g s.candidates
  | StrategyName.expected_size => score_expected_size g s.candidates
  | StrategyName.minimax => score_minimax g s.candidates
  | StrategyName.hybrid => score_hybrid g s.candidates turn s.max_turns

/-- Solver._score_pool: best-scoring word of the pool under the configured
strategy with the candidate tie-break; pool[0] on an empty pool raises,
modelled as none. -/
noncomputable def Solver.score_pool (s : Solver) (pool : List Word) (turn : Nat) : Option Word :=
  match pool with
  | [] => none
  | w0 :: _ =>
    some (scorePoolLoop (s.strategy_score turn)
      (fun g => decide (g ∈ s.candidates)) pool w0 none false)

/-- Solver.best_guess: raise on an empty candidate set; answer directly with
one or two candidates left; consult the first-guess cache (modelled as the
looked-up value, only applicable on turn 1 against the full universe); else
score the selected pool, frequency through its batch path.  The cache write
does not affect the returned word and is omitted. -/
noncomputable def Solver.best_guess (s : Solver) (turn : Nat) (cache : Option Word) :
    Except SolverError Word :=
  let n := s.candidates.length
  if n = 0 then Except.error SolverError.inconsistentState
  else if n = 1 then Except.ok s.candidates.headI
  else if n = 2 then Except.ok s.candidates.headI
  else
    match (if turn = 1 ∧ n = s.initial_solutions.length then cache else none) with
    | some w => Except.ok w
    | none =>
      let pool := s.select_guess_pool turn
      let result :=
        if s.strategy_name = StrategyName.frequency then
          score_frequency_batch pool s.candidates s.word_length
        else
          s.score_pool pool turn
      match result with
      | some w => Except.ok w
      | none => Except.error SolverError.emptyPool

/-! ## Helper lemmas -/

/-- The per-candidate body inlined in the batch, bucketing and filtering
loops is the body of compute_pattern. -/
theorem pattern_body_eq (g s : Word) :
    encodeTiles (pass2 g (pass1 g s (initCounts s)).1 (pass1 g s (initCounts s)).2) =
      compute_pattern g s := rfl

/-- filter_candidates is List.filter by pattern equality. -/
theorem filter_candidates_eq_filter (g : Word) (p : Nat) :
    ∀ S : List Word,
      filter_candidates S g p = S.filter (fun s => decide (compute_pattern g s = p))
  | [] => rfl
  | s :: rest => by
    simp only [filter_candidates, List.filter, pattern_body_eq]
    by_cases h : compute_pattern g s = p
    · simp [h, filter_candidates_eq_filter g p rest]
    · simp [h, filter_candidates_eq_filter g p rest]

/-- Sum of the counts of a bucket-size table. -/
def sumValues (bs : List (Nat × Nat)) : Nat :=
  (bs.map (fun kv => kv.2)).sum

/-- Unfolding sumValues over a cons cell. -/
theorem sumValues_cons (k v : Nat) (rest : List (Nat × Nat)) :
    sumValues ((k, v) :: rest) = v + sumValues rest := by
  simp [sumValues]

/-- dictIncr adds exactly one to the total count. -/
theorem sumValues_dictIncr (p : Nat) :
    ∀ bs : List (Nat × Nat), sumValues (dictIncr bs p) = sumValues bs + 1
  | [] => by simp [dictIncr, sumValues]
  | (k, v) :: rest => by
    by_cases h : k = p
    · rw [show dictIncr ((k, v) :: rest) p = (k, v + 1) :: rest from by simp [dictIncr, h]]
      rw [sumValues_cons, sumValues_cons]
      omega
    · rw [show dictIncr ((k, v) :: rest) p = (k, v) :: dictIncr rest p from by
        simp [dictIncr, h]]
      rw [sumValues_cons, sumValues_cons, sumValues_dictIncr p rest]
      omega

/-- The bucket_sizes loop adds one count per candidate. -/
theorem sumValues_bucket_sizesAux (g : Word) :
    ∀ (cands : List Word) (acc : List (Nat × Nat)),
      sumValues (bucket_sizesAux g cands acc) = sumValues acc + cands.length
  | [], _ => rfl
  | s :: rest, acc => by
    simp only [bucket_sizesAux]
    rw [sumValues_bucket_sizesAux g rest]
    rw [sumValues_dictIncr]
    simp [List.length_cons]
    omega

/-- Every count dictIncr produces is positive when the existing ones are. -/
theorem dictIncr_pos (p : Nat) :
    ∀ bs : List (Nat × Nat), (∀ kv ∈ bs, 1 ≤ kv.2) →
      ∀ kv ∈ dictIncr bs p, 1 ≤ kv.2
  | [], _ => by
    intro kv hkv
    simp [dictIncr] at hkv
    simp [hkv]
  | (k, v) :: rest, h => by
    intro kv hkv
    by_cases hk : k = p
    · simp [dictIncr, hk] at hkv
      rcases hkv with h1 | h2
      · rw [h1]
        exact Nat.succ_le_succ (Nat.zero_le v)
      · exact h kv (by simp [h2])
    · simp [dictIncr, hk] at hkv
      rcases hkv with h1 | h2
      · exact h kv (by simp [h1])
      · exact dictIncr_pos p rest (fun kv hkv => h kv (by simp [hkv])) kv h2

/-- All counts in the bucket_sizes loop are positive. -/
theorem bucket_sizesAux_pos (g : Word) :
    ∀ (cands : List Word) (acc : List (Nat × Nat)), (∀ kv ∈ acc, 1 ≤ kv.2) →
      ∀ kv ∈ bucket_sizesAux g cands acc, 1 ≤ kv.2
  | [], _, h => h
  | s :: rest, acc, h => by
    simp only [bucket_sizesAux]
    exact bucket_sizesAux_pos g rest _ (dictIncr_pos _ acc h)

/-- Total bucket count of bucket_sizes: one per candidate (shared form). -/
theorem bucket_sizes_sum (g : Word) (S : List Word) :
    sumValues (bucket_sizes g S) = S.length := by
  have := sumValues_bucket_sizesAux g S []
  simpa [bucket_sizes, sumValues] using this

/-- Every bucket of bucket_sizes has a positive count. -/
theorem bucket_sizes_pos (g : Word) (S : List Word) :
    ∀ kv ∈ bucket_sizes g S, 1 ≤ kv.2 :=
  bucket_sizesAux_pos g S [] (by simp)

/-! ## Claims -/

/-- C2: compute_pattern resolves duplicate letters by the consume-once rule
on the spec's five fixtures, each pattern encoded base 3 with the
most-significant digit at position 0. -/
theorem compute_pattern_fixtures :
    compute_pattern (wSpeed) (wAbide) = encodeTiles [0, 0, 1, 0, 1] ∧
    compute_pattern (wLlama) (wWorld) = encodeTiles [1, 0, 0, 0, 0] ∧
    compute_pattern (wAbyss) (wBanal) = encodeTiles [1, 1, 0, 0, 0] ∧
    compute_pattern (wProof) (wAfoot) = encodeTiles [0, 0, 2, 2, 1] ∧
    compute_pattern (wEeeee) (wGeese) = encodeTiles [0, 2, 2, 0, 2] := by
  refine ⟨?_, ?_, ?_, ?_, ?_⟩ <;> decide

/-- C3: compute_pattern_batch is the element-wise application of
compute_pattern, in the same order, for every guess and secret list. -/
theorem compute_pattern_batch_eq_map (g : Word) :
    ∀ S : List Word, compute_pattern_batch g S = S.map (compute_pattern g)
  | [] => rfl
  | s :: rest => by
    simp only [compute_pattern_batch, List.map, pattern_body_eq]
    rw [compute_pattern_batch_eq_map g rest]

/-- C4: a secret that is a member of the candidate list survives filtering by
its own pattern, and filter_candidates keeps exactly the members whose
computed pattern against the guess equals the given pattern, in their
original relative order (it is List.filter). -/
theorem filter_candidates_sound (g : Word) (S : List Word) (p : Nat) (secret : Word)
    (hmem : secret ∈ S) :
    secret ∈ filter_candidates S g (compute_pattern g secret) ∧
    filter_candidates S g p = S.filter (fun s => decide (compute_pattern g s = p)) := by
  refine ⟨?_, filter_candidates_eq_filter g p S⟩
  rw [filter_candidates_eq_filter]
  simp [List.mem_filter, hmem]

/-- C4 witness at a concrete input. -/
theorem filter_candidates_sound_witness :
    wCrate ∈ filter_candidates [wCrane, wCrate] (wCrane)
        (compute_pattern (wCrane) (wCrate)) ∧
    filter_candidates [wCrane, wCrate] (wCrane) 0 =
      [wCrane, wCrate].filter
        (fun s => decide (compute_pattern (wCrane) s = 0)) :=
  filter_candidates_sound (wCrane) [wCrane, wCrate] 0 (wCrate)
    (by decide)

/-- C5: the counts of bucket_sizes sum to the number of candidates. -/
theorem bucket_sizes_sum_eq_length (g : Word) (S : List Word) :
    sumValues (bucket_sizes g S) = S.length :=
  bucket_sizes_sum g S

/-- C8: under hard mode, update never grows the guess pool, and hard mode is
preserved, so the bound holds after each update of any sequence. -/
theorem update_hard_mode_pool_shrinks (s : Solver) (g : Word) (p : Nat)
    (h : s.hard_mode = true) :
    ((s.update g p).guess_pool).length ≤ s.guess_pool.length ∧
    (s.update g p).hard_mode = true := by
  constructor
  · simp only [Solver.update, h, if_pos]
    rw [filter_candidates_eq_filter]
    exact List.length_filter_le _ _
  · simpa [Solver.update] using h

/-- C8 witness at a concrete hard-mode solver. -/
theorem update_hard_mode_pool_shrinks_witness :
    ((Solver.update (mkSolver [wCrane] [wCrane, wSlate]
          StrategyName.entropy 5 6 true) (wSlate) 0).guess_pool).length ≤
      (mkSolver [wCrane] [wCrane, wSlate]
          StrategyName.entropy 5 6 true).guess_pool.length ∧
    (Solver.update (mkSolver [wCrane] [wCrane, wSlate]
        StrategyName.entropy 5 6 true) (wSlate) 0).hard_mode = true :=
  update_hard_mode_pool_shrinks
    (mkSolver [wCrane] [wCrane, wSlate] StrategyName.entropy 5 6 true)
    (wSlate) 0 rfl

/-- C9: without hard mode, update leaves the guess pool and every
configuration field unchanged; only the history (one appended entry) and the
candidate set change. -/
theorem update_easy_mode_frame (s : Solver) (g : Word) (p : Nat)
    (h : s.hard_mode = false) :
    (s.update g p).guess_pool = s.guess_pool ∧
    (s.update g p).history = s.history ++ [(g, p)] ∧
    (s.update g p).candidates = filter_candidates s.candidates g p ∧
    (s.update g p).word_length = s.word_length ∧
    (s.update g p).max_turns = s.max_turns ∧
    (s.update g p).hard_mode = s.hard_mode ∧
    (s.update g p).strategy_name = s.strategy_name ∧
    (s.update g p).initial_solutions = s.initial_solutions ∧
    (s.update g p).initial_guesses = s.initial_guesses := by
  simp [Solver.update, h]

/-- C9 witness at a concrete easy-mode solver. -/
theorem update_easy_mode_frame_witness :
    (Solver.update (mkSolver [wCrane] [wCrane, wSlate]
        StrategyName.entropy 5 6 false) (wSlate) 0).guess_pool =
      (mkSolver [wCrane] [wCrane, wSlate]
        StrategyName.entropy 5 6 false).guess_pool ∧
    (Solver.update (mkSolver [wCrane] [wCrane, wSlate]
        StrategyName.entropy 5 6 false) (wSlate) 0).history =
      (mkSolver [wCrane] [wCrane, wSlate]
        StrategyName.entropy 5 6 false).history ++ [(wSlate, 0)] :=
  ⟨(update_easy_mode_frame
      (mkSolver [wCrane] [wCrane, wSlate] StrategyName.entropy 5 6 false)
      (wSlate) 0 rfl).1,
   (update_easy_mode_frame
      (mkSolver [wCrane] [wCrane, wSlate] StrategyName.entropy 5 6 false)
      (wSlate) 0 rfl).2.1⟩

/-- A frequency-strategy solver whose guess pool strictly contains its
candidate set, with more than two candidates, so best_guess scores a pool. -/
def freqSolver : Solver :=
  mkSolver [[0], [1], [2]] [[0], [1], [2], [3]] StrategyName.frequency 1 6 false

/-- C1 counterexample: with the Frequency strategy and three candidates the
pool selected for scoring is the candidate set, not the full guess pool. -/
theorem select_guess_pool_frequency_cex :
    2 < freqSolver.candidates.length ∧
    Solver.select_guess_pool freqSolver 1 = freqSolver.candidates ∧
    Solver.select_guess_pool freqSolver 1 ≠ freqSolver.guess_pool := by
  refine ⟨by decide, by decide, by decide⟩

/-- C1 amended: with the Frequency strategy the pool selected for scoring is
always the candidate set, at every candidate-set size and turn. -/
theorem select_guess_pool_frequency (s : Solver) (turn : Nat)
    (h : s.strategy_name = StrategyName.frequency) :
    s.select_guess_pool turn = s.candidates := by
  unfold Solver.select_guess_pool
  dsimp only
  split_ifs with h1 h2 h3
  · rfl
  · rfl
  · exfalso
    rcases h3.1 with h' | h' | h' | h' <;> rw [h] at h' <;> exact StrategyName.noConfusion h'
  · rfl

/-- C1 amended witness: the concrete frequency solver scores its candidates. -/
theorem select_guess_pool_frequency_witness :
    Solver.select_guess_pool freqSolver 3 = freqSolver.candidates :=
  select_guess_pool_frequency freqSolver 3 rfl

/-- Keys of a bucket map. -/
def keysOf (bs : List (Nat × List Word)) : List Nat :=
  bs.map Prod.fst

/-- Lookup after dictAppend: the inserted key gains the appended word, every
other key is untouched, and a missing key starts a singleton bucket. -/
theorem dictGetD_dictAppend (kI : Nat) (w : Word) (q : Nat) :
    ∀ bs : List (Nat × List Word),
      dictGetD (dictAppend bs kI w) q =
        if q = kI then dictGetD bs q ++ [w] else dictGetD bs q
  | [] => by
    by_cases h : q = kI
    · simp [dictAppend, dictGetD, h]
    · simp [dictAppend, dictGetD, h, Ne.symm h]
  | (k', v) :: rest => by
    have ih := dictGetD_dictAppend kI w q rest
    by_cases h1 : k' = kI
    · subst h1
      by_cases h2 : k' = q
      · subst h2
        simp [dictAppend, dictGetD]
      · simp [dictAppend, dictGetD, h2, Ne.symm h2]
    · by_cases h2 : k' = q
      · subst h2
        simp [dictAppend, dictGetD, h1, Ne.symm h1]
      · simp [dictAppend, dictGetD, h1, h2, Ne.symm h2, ih]

/-- Keys after dictAppend: unchanged when the key is present, appended when
it is new. -/
theorem keysOf_dictAppend (kI : Nat) (w : Word) :
    ∀ bs : List (Nat × List Word),
      keysOf (dictAppend bs kI w) =
        if kI ∈ keysOf bs then keysOf bs else keysOf bs ++ [kI]
  | [] => by simp [dictAppend, keysOf]
  | (k', v) :: rest => by
    have ih := keysOf_dictAppend kI w rest
    by_cases h1 : k' = kI
    · subst h1
      simp [dictAppend, keysOf]
    · simp only [keysOf] at ih ⊢
      rw [show dictAppend ((k', v) :: rest) kI w = (k', v) :: dictAppend rest kI w from by
        simp [dictAppend, h1]]
      simp only [List.map_cons]
      rw [ih]
      by_cases h2 : kI ∈ rest.map Prod.fst
      · simp [h2, Ne.symm h1]
      · simp [h2, Ne.symm h1]

/-- Lookup in the bucket_by_pattern loop: accumulated bucket plus the
filtered remainder. -/
theorem bucket_by_patternAux_getD (g : Word) (q : Nat) :
    ∀ (cands : List Word) (acc : List (Nat × List Word)),
      dictGetD (bucket_by_patternAux g cands acc) q =
        dictGetD acc q ++ filter_candidates cands g q
  | [], acc => by simp [bucket_by_patternAux, filter_candidates]
  | s :: rest, acc => by
    simp only [bucket_by_patternAux, filter_candidates, pattern_body_eq]
    rw [bucket_by_patternAux_getD g q rest]
    rw [dictGetD_dictAppend]
    by_cases h : compute_pattern g s = q
    · simp [h, List.append_assoc]
    · simp [h, Ne.symm h]

/-- The bucket_by_pattern loop keeps the bucket keys distinct. -/
theorem bucket_by_patternAux_nodup (g : Word) :
    ∀ (cands : List Word) (acc : List (Nat × List Word)),
      (keysOf acc).Nodup → (keysOf (bucket_by_patternAux g cands acc)).Nodup
  | [], _, h => h
  | s :: rest, acc, h => by
    simp only [bucket_by_patternAux]
    refine bucket_by_patternAux_nodup g rest _ ?_
    rw [keysOf_dictAppend]
    by_cases hmem : encodeTiles (pass2 g (pass1 g s (initCounts s)).1 (pass1 g s (initCounts s)).2) ∈ keysOf acc
    · simp [hmem, h]
    · simp [hmem, List.nodup_append, h]

/-- One entropy term is nonnegative and at most its probability share of
logb 2 n: for 1 ≤ c ≤ n, 0 ≤ -(c/n · log2(c/n)) ≤ (c/n) · log2 n. -/
theorem entropy_term_bounds (n : ℝ) (hn : 1 ≤ n) (c : Nat) (hc : 1 ≤ c)
    (hcn : (c : ℝ) ≤ n) :
    0 ≤ -(((c : ℝ) / n) * Real.logb 2 ((c : ℝ) / n)) ∧
    -(((c : ℝ) / n) * Real.logb 2 ((c : ℝ) / n)) ≤ ((c : ℝ) / n) * Real.logb 2 n := by
  have hn0 : (0 : ℝ) < n := lt_of_lt_of_le one_pos hn
  have hc0 : (0 : ℝ) < (c : ℝ) := by exact_mod_cast hc
  have hp0 : (0 : ℝ) < (c : ℝ) / n := div_pos hc0 hn0
  have hp1 : (c : ℝ) / n ≤ 1 := (div_le_one hn0).mpr hcn
  have hb : (1 : ℝ) < 2 := one_lt_two
  constructor
  · have hlg : Real.logb 2 ((c : ℝ) / n) ≤ 0 := Real.logb_nonpos hb (le_of_lt hp0) hp1
    have := mul_nonneg (le_of_lt hp0) (neg_nonneg.mpr hlg)
    nlinarith
  · have hinv : ((c : ℝ) / n)⁻¹ = n / (c : ℝ) := by
      rw [inv_div]
    have hinvle : ((c : ℝ) / n)⁻¹ ≤ n := by
      rw [hinv]
      calc n / (c : ℝ) ≤ n / 1 := by
            apply div_le_div_of_nonneg_left (le_of_lt hn0) one_pos
            exact_mod_cast hc
        _ = n := by ring
    have hlog : Real.logb 2 (((c : ℝ) / n)⁻¹) ≤ Real.logb 2 n :=
      Real.logb_le_logb_of_le hb (inv_pos.mpr hp0) hinvle
    rw [Real.logb_inv] at hlog
    have := mul_le_mul_of_nonneg_left hlog (le_of_lt hp0)
    nlinarith

/-- Entropy term sums over a list of positive counts bounded by n are
nonnegative and bounded by (sum / n) · log2 n. -/
theorem entropy_terms_sum_bounds (n : ℝ) (hn : 1 ≤ n) :
    ∀ l : List Nat, (∀ c ∈ l, 1 ≤ c ∧ (c : ℝ) ≤ n) →
      0 ≤ (l.map (fun c : Nat => -(((c : ℝ) / n) * Real.logb 2 ((c : ℝ) / n)))).sum ∧
      (l.map (fun c : Nat => -(((c : ℝ) / n) * Real.logb 2 ((c : ℝ) / n)))).sum ≤
        ((l.sum : ℝ) / n) * Real.logb 2 n
  | [], _ => by simp
  | c :: rest, h => by
    have hc := h c (by simp)
    have ih := entropy_terms_sum_bounds n hn rest
      (fun c' hc' => h c' (by simp [hc']))
    have hterm := entropy_term_bounds n hn c hc.1 hc.2
    rw [List.map_cons, List.sum_cons]
    constructor
    · linarith [ih.1, hterm.1]
    · have hsum : (((c :: rest).sum : ℝ) / n) * Real.logb 2 n =
          ((c : ℝ) / n) * Real.logb 2 n + ((rest.sum : ℝ) / n) * Real.logb 2 n := by
        rw [List.sum_cons]
        push_cast
        ring
      rw [hsum]
      linarith [ih.2, hterm.2]

/-- C6 counterexample: two distinct candidates that produce the same pattern
against the guess give entropy 0, so entropy 0 does not force a candidate
set of size at most 1. -/
theorem score_entropy_zero_two_candidates :
    score_entropy [0] [[1], [2]] = 0 ∧ ¬(([[1], [2]] : List Word).length ≤ 1) := by
  constructor
  · have hb : bucket_sizes [0] [[1], [2]] = [(0, 2)] := by decide
    simp only [score_entropy, hb]
    norm_num
  · decide

/-- C6 amended: for every nonempty candidate set, score_entropy lies in
[0, log2 |S|], and equals 0 whenever |S| ≤ 1 (two candidates sharing a
pattern can also give 0, so the converse fails). -/
theorem score_entropy_bounds (g : Word) (S : List Word) (hS : S ≠ []) :
    0 ≤ score_entropy g S ∧
    score_entropy g S ≤ Real.logb 2 (S.length : ℝ) ∧
    (S.length ≤ 1 → score_entropy g S = 0) := by
  have hlen : 1 ≤ S.length := List.length_pos.mpr hS
  have hn1 : (1 : ℝ) ≤ (S.length : ℝ) := by exact_mod_cast hlen
  by_cases hsmall : S.length ≤ 1
  · have hz : score_entropy g S = 0 := by
      simp [score_entropy, hsmall]
    refine ⟨by rw [hz], ?_, fun _ => hz⟩
    rw [hz]
    exact Real.logb_nonneg one_lt_two hn1
  · have hvals : ∀ c ∈ (bucket_sizes g S).map (fun kv : Nat × Nat => kv.2),
        1 ≤ c ∧ (c : ℝ) ≤ (S.length : ℝ) := by
      intro c hcmem
      rcases List.mem_map.mp hcmem with ⟨kv, hkv, hkvc⟩
      have h1 : 1 ≤ c := hkvc ▸ bucket_sizes_pos g S kv hkv
      have h2 : c ≤ S.length := by
        have hle : c ≤ ((bucket_sizes g S).map (fun kv : Nat × Nat => kv.2)).sum :=
          List.le_sum_of_mem hcmem
        have := bucket_sizes_sum g S
        simp only [sumValues] at this
        omega
      exact ⟨h1, by exact_mod_cast h2⟩
    have hmain := entropy_terms_sum_bounds (S.length : ℝ) hn1
      ((bucket_sizes g S).map (fun kv : Nat × Nat => kv.2)) hvals
    have hscore : score_entropy g S =
        (((bucket_sizes g S).map (fun kv : Nat × Nat => kv.2)).map
          (fun c : Nat => -(((c : ℝ) / (S.length : ℝ)) *
            Real.logb 2 ((c : ℝ) / (S.length : ℝ))))).sum := by
      rw [List.map_map]
      simp [score_entropy, hsmall, Function.comp]
      rfl
    have hsum : ((bucket_sizes g S).map (fun kv : Nat × Nat => kv.2)).sum = S.length := by
      have := bucket_sizes_sum g S
      simpa [sumValues] using this
    refine ⟨?_, ?_, fun hcontr => absurd hcontr hsmall⟩
    · rw [hscore]
      exact hmain.1
    · rw [hscore]
      have := hmain.2
      rw [hsum] at this
      have hne : (S.length : ℝ) ≠ 0 := by positivity
      rw [div_self hne, one_mul] at this
      exact this

/-- The selected scoring pool is always either the candidate set or the full
guess pool. -/
theorem select_guess_pool_cases (s : Solver) (turn : Nat) :
    s.select_guess_pool turn = s.candidates ∨ s.select_guess_pool turn = s.guess_pool := by
  unfold Solver.select_guess_pool
  dsimp only
  split_ifs
  · exact Or.inl rfl
  · exact Or.inl rfl
  · exact Or.inr rfl
  · exact Or.inl rfl

/-- score_frequency_batch returns a word whenever the pool is nonempty. -/
theorem score_frequency_batch_some (pool candidates : List Word) (L : Nat)
    (h : pool ≠ []) : ∃ w, score_frequency_batch pool candidates L = some w := by
  cases pool with
  | nil => exact absurd rfl h
  | cons w0 rest =>
    simp only [score_frequency_batch]
    by_cases hc : candidates.length = 0
    · exact ⟨w0, by rw [if_pos hc]⟩
    · exact ⟨_, by rw [if_neg hc]⟩

/-- Solver._score_pool returns a word whenever the pool is nonempty. -/
theorem solver_score_pool_some (s : Solver) (pool : List Word) (turn : Nat)
    (h : pool ≠ []) : ∃ w, s.score_pool pool turn = some w := by
  cases pool with
  | nil => exact absurd rfl h
  | cons w0 rest => exact ⟨_, rfl⟩

/-- best_guess returns a word (never raises) on a nonempty candidate set when
the guess pool contains every candidate. -/
theorem best_guess_ok_of_nonempty (s : Solver) (turn : Nat) (cache : Option Word)
    (hsub : ∀ w ∈ s.candidates, w ∈ s.guess_pool) (h0 : s.candidates ≠ []) :
    ∃ w, s.best_guess turn cache = Except.ok w := by
  have hn : 0 < s.candidates.length := List.length_pos.mpr h0
  unfold Solver.best_guess
  dsimp only
  rw [if_neg (by omega : ¬s.candidates.length = 0)]
  by_cases h2 : s.candidates.length = 1
  · rw [if_pos h2]
    exact ⟨_, rfl⟩
  rw [if_neg h2]
  by_cases h3 : s.candidates.length = 2
  · rw [if_pos h3]
    exact ⟨_, rfl⟩
  rw [if_neg h3]
  have hpool : s.select_guess_pool turn ≠ [] := by
    rcases select_guess_pool_cases s turn with hcase | hcase
    · rw [hcase]; exact h0
    · rw [hcase]
      rcases List.exists_mem_of_ne_nil s.candidates h0 with ⟨w, hw⟩
      exact List.ne_nil_of_mem (hsub w hw)
  cases hcache : (if turn = 1 ∧ s.candidates.length = s.initial_solutions.length
      then cache else none) with
  | some w => exact ⟨w, rfl⟩
  | none =>
    by_cases hst : s.strategy_name = StrategyName.frequency
    · rw [if_pos hst]
      rcases score_frequency_batch_some (s.select_guess_pool turn) s.candidates
        s.word_length hpool with ⟨w, hw⟩
      rw [hw]
      exact ⟨w, rfl⟩
    · rw [if_neg hst]
      rcases solver_score_pool_some s (s.select_guess_pool turn) turn hpool with ⟨w, hw⟩
      rw [hw]
      exact ⟨w, rfl⟩

/-- C7: with the guess pool a superset of the candidate set, best_guess
raises the distinguishable inconsistent-state error exactly when the
candidate set is empty, and returns a word without raising otherwise. -/
theorem best_guess_inconsistent_iff (s : Solver) (turn : Nat) (cache : Option Word)
    (hsub : ∀ w ∈ s.candidates, w ∈ s.guess_pool) :
    (s.best_guess turn cache = Except.error SolverError.inconsistentState ↔
      s.candidates = []) ∧
    (s.candidates ≠ [] → ∃ w, s.best_guess turn cache = Except.ok w) := by
  by_cases h0 : s.candidates = []
  · refine ⟨⟨fun _ => h0, fun _ => ?_⟩, fun hne => absurd h0 hne⟩
    unfold Solver.best_guess
    simp [h0]
  · have hok := best_guess_ok_of_nonempty s turn cache hsub h0
    refine ⟨⟨fun herr => ?_, fun hc => absurd hc h0⟩, fun _ => hok⟩
    rcases hok with ⟨w, hw⟩
    rw [hw] at herr
    exact Except.noConfusion herr

/-- C7 witness: the iff at a concrete solver with three candidates inside a
four-word pool. -/
theorem best_guess_inconsistent_iff_witness :
    (Solver.best_guess freqSolver 1 none = Except.error SolverError.inconsistentState ↔
      freqSolver.candidates = []) ∧
    (freqSolver.candidates ≠ [] →
      ∃ w, Solver.best_guess freqSolver 1 none = Except.ok w) :=
  best_guess_inconsistent_iff freqSolver 1 none (by decide)

/-- C6 amended witness: the bounds at a concrete singleton candidate set. -/
theorem score_entropy_bounds_witness :
    0 ≤ score_entropy (([1, 0] : Word)) [([0, 1] : Word)] ∧
    score_entropy (([1, 0] : Word)) [([0, 1] : Word)] ≤ Real.logb 2 (([([0, 1] : Word)] : List Word).length : ℝ) ∧
    (([([0, 1] : Word)] : List Word).length ≤ 1 → score_entropy (([1, 0] : Word)) [([0, 1] : Word)] = 0) :=
  score_entropy_bounds (([1, 0] : Word)) [([0, 1] : Word)] (by simp)

/-- C10: the bucket stored under key p by bucket_by_pattern (the empty list
when no such key exists) is exactly filter_candidates, and bucket keys are
distinct, so each candidate lands in exactly one bucket, in order. -/
theorem bucket_by_pattern_eq_filter (g : Word) (S : List Word) (p : Nat) :
    dictGetD (bucket_by_pattern g S) p = filter_candidates S g p ∧
    (keysOf (bucket_by_pattern g S)).Nodup := by
  constructor
  · have := bucket_by_patternAux_getD g p S []
    simpa [bucket_by_pattern, dictGetD] using this
  · exact bucket_by_patternAux_nodup g S [] (by simp [keysOf])
